import Mathlib

/-!
Verification of the repetition-code decoding pipeline in
`src/simulation_code/problem_2.py`.

The shallow embedding models:
* `process_run` — the body of the per-shot loop of `process_measurements`
  (lines 86-111): slicing the raw record, reshaping the ancilla block,
  projecting the final data row, and differencing syndromes in time.
  Fallible numpy operations (reshape of a wrong-sized block, out-of-range
  indexing) are modelled by `Option`.
* `build_decoding_graph` (lines 115-162) — the exact sequence of
  `add_edge` / `add_boundary_edge` calls, as a list of `Edge` records.
* `simulate_threshold_search` — the threshold-estimation loop of
  `simulate_threshold` (lines 199-214), over an arbitrary table of logical
  error rates (one row per swept distance, one column per probability).

Bits are `Bool`, probabilities and error rates are `ℚ`.
-/

/-- One edge of the matching graph: `node2 = none` encodes a call to
`add_boundary_edge`, `node2 = some b` a call to `add_edge a b`. -/
structure Edge where
  node1 : ℕ
  node2 : Option ℕ
  error_probability : ℚ
  fault_ids : Finset ℕ
deriving DecidableEq

/-- Node index used by `build_decoding_graph` (source lines 131-132). -/
def get_index (d t i : ℕ) : ℕ := (d - 1) * t + i

/-- The decoding graph of source lines 129-162, as the list of edges in the
order the code adds them: the space-like loop (`t in range(d)`,
`i in range(1, d-1)`), then the time-like loop (`t in range(1, d)`,
`i in range(d-1)`), then the boundary loop (`t in range(d)`,
`i in range(d-1)` filtered by `i in [0, d-2]`). -/
def build_decoding_graph (d : ℕ) (p q : ℚ) : List Edge :=
  ((List.range d).flatMap (fun t =>
    (List.range' 1 (d - 1 - 1)).map (fun i =>
      ⟨get_index d t (i - 1), some (get_index d t i), p, {i}⟩)))
  ++ ((List.range' 1 (d - 1)).flatMap (fun t =>
    (List.range (d - 1)).map (fun i =>
      ⟨get_index d (t - 1) i, some (get_index d t i), q, (∅ : Finset ℕ)⟩)))
  ++ ((List.range d).flatMap (fun t =>
    (List.range (d - 1)).filterMap (fun i =>
      if i = 0 ∨ i = d - 2 then
        some ⟨get_index d t i, none, p, {if i = 0 then 0 else d - 1}⟩
      else none)))

/-- Body of the per-shot loop of `process_measurements` (source lines 87-110).
`run.take ((d-1)*(d-1))` is `run[: n_ancillas * n_ancillas]`; the reshape into
a `(d-1) × (d-1)` block fails (numpy `ValueError`) unless that slice has
exactly `(d-1)*(d-1)` entries.  `run.drop (run.length - d)` is `run[-d:]`.
The projected-syndrome comprehension indexes `final_data[i]` and
`final_data[i+1]`, which raises (`IndexError`) when out of range; both
failures are `none`. -/
def process_run (d : ℕ) (run : List Bool) : Option (List Bool) :=
  let nAnc := d - 1
  let anc := run.take (nAnc * nAnc)
  if anc.length = nAnc * nAnc then
    let finalData := run.drop (run.length - d)
    match (List.range nAnc).mapM (fun i => do
        let a ← finalData.get? i
        let b ← finalData.get? (i + 1)
        pure (Bool.xor a b)) with
    | none => none
    | some proj =>
      let syndrome : ℕ → ℕ → Bool := fun t i =>
        if t < nAnc then anc.getD (t * nAnc + i) false else proj.getD i false
      some ((List.range d).flatMap (fun t => (List.range nAnc).map (fun i =>
        if t = 0 then syndrome 0 i
        else Bool.xor (syndrome t i) (syndrome (t - 1) i))))
  else none

/-- `process_measurements` (source lines 73-111): the per-shot extraction
applied to every sampled run, failing as a whole if any run fails. -/
def process_measurements (sampled_runs : List (List Bool)) (d : ℕ) :
    Option (List (List Bool)) :=
  sampled_runs.mapM (process_run d)

/-- Syndrome-lattice entry as the spec describes it for a record of the
correct length `(d-1)*(d-1) + d`: rows `t < d-1` come from the ancilla block
reshaped row-major, the final row is `finalData[i] XOR finalData[i+1]` over
the last `d` bits (which start at offset `(d-1)*(d-1)`). -/
def specSyndrome (d : ℕ) (run : List Bool) (t i : ℕ) : Bool :=
  if t < d - 1 then run.getD (t * (d - 1) + i) false
  else Bool.xor (run.getD ((d - 1) * (d - 1) + i) false)
    (run.getD ((d - 1) * (d - 1) + i + 1) false)

/-- Defect-lattice entry as the spec describes it:
`D[0][i] = S[0][i]`, `D[t][i] = S[t][i] XOR S[t-1][i]` for `t > 0`. -/
def specDefect (d : ℕ) (run : List Bool) (t i : ℕ) : Bool :=
  if t = 0 then specSyndrome d run 0 i
  else Bool.xor (specSyndrome d run t i) (specSyndrome d run (t - 1) i)

/-- Syndrome entry computed from a record of arbitrary length, exactly as the
code slices it: the final-data block is the last `min d (run.length)` bits. -/
def synVal (d : ℕ) (run : List Bool) (t i : ℕ) : Bool :=
  if t < d - 1 then run.getD (t * (d - 1) + i) false
  else Bool.xor (run.getD (run.length - d + i) false)
    (run.getD (run.length - d + i + 1) false)

/-- Defect entry computed from a record of arbitrary length. -/
def defectVal (d : ℕ) (run : List Bool) (t i : ℕ) : Bool :=
  if t = 0 then synVal d run 0 i
  else Bool.xor (synVal d run t i) (synVal d run (t - 1) i)

/-- Raw measurement record of the correct length `(d-1)*(d-1) + d` that is
all zero except the ancilla measurement at round `t`, spatial index `i`. -/
def singleAncillaRecord (d t i : ℕ) : List Bool :=
  (List.range ((d - 1) * (d - 1) + d)).map (fun k => decide (k = t * (d - 1) + i))

/-- Column `i` of the results table (`[results[d][i] for d in distances]`),
rows listed in the order of the swept distances. -/
def tableColumn (table : List (List ℚ)) (i : ℕ) : List ℚ :=
  table.map (fun row => row.getD i 0)

/-- Inner distance loop of the threshold search (source lines 201-212),
walking the per-distance logical error rates of probability column `i` with
state `pLPrev` (initially `-1`) and flag `allD` (initially `true`); returns
`true` exactly when the loop executes `threshold_p = ...; break`, which the
code does at the last distance when the increase check passes and the flag
is still set. -/
def scanColumnGo (i : ℕ) : ℚ → Bool → List ℚ → Bool
  | _, _, [] => false
  | pLPrev, allD, pL :: rest =>
    if 0 < i ∧ 0 < pLPrev then
      if pLPrev < pL then
        if rest = [] ∧ allD = true then true
        else scanColumnGo i pL allD rest
      else scanColumnGo i pL false rest
    else scanColumnGo i pL allD rest

/-- Outer probability loop of the threshold search: `i` scans
`range(len(probabilities) - 1)` in ascending order (`fuel` counts the
remaining indices) and the first column whose distance walk records a
threshold yields `(probabilities[i-1] + probabilities[i]) / 2`. -/
def simulate_threshold_search_aux (probs : List ℚ) (table : List (List ℚ)) :
    ℕ → ℕ → Option ℚ
  | 0, _ => none
  | Nat.succ fuel, i =>
    if scanColumnGo i (-1) true (tableColumn table i) then
      some ((probs.getD (i - 1) 0 + probs.getD i 0) / 2)
    else simulate_threshold_search_aux probs table fuel (i + 1)

/-- Threshold estimation loop of `simulate_threshold` (source lines 199-214)
over an arbitrary table of logical error rates. -/
def simulate_threshold_search (probs : List ℚ) (table : List (List ℚ)) :
    Option ℚ :=
  simulate_threshold_search_aux probs table (probs.length - 1) 0

/-- Recording predicate of claim C1, following the spec text: walking the
distances, the flag is cleared exactly when the previous pL is positive and
the current pL does not exceed it (`List.Chain'` of the survival condition),
and the threshold is recorded when the flag is still true after the loop;
recording is tied to the probability indices `i ≥ 1` that the clearing rule
distinguishes (the midpoint formula needs `probabilities[i-1]`). -/
def claimRecordAt (col : List ℚ) : Prop :=
  List.Chain' (fun a b => 0 < a → a < b) col

instance claimRecordAt.instDecidable (col : List ℚ) :
    Decidable (claimRecordAt col) :=
  inferInstanceAs (Decidable (List.Chain' (fun a b : ℚ => 0 < a → a < b) col))

/-- Outer loop of the search algorithm exactly as claim C1 words it. -/
def claimSearchAux (probs : List ℚ) (table : List (List ℚ)) :
    ℕ → ℕ → Option ℚ
  | 0, _ => none
  | Nat.succ fuel, i =>
    if 1 ≤ i ∧ claimRecordAt (tableColumn table i) then
      some ((probs.getD (i - 1) 0 + probs.getD i 0) / 2)
    else claimSearchAux probs table fuel (i + 1)

/-- The threshold search as claim C1 describes it. -/
def claimSearch (probs : List ℚ) (table : List (List ℚ)) : Option ℚ :=
  claimSearchAux probs table (probs.length - 1) 0

/-- Recording predicate that the code actually implements: additionally to
the flag surviving the walk, the increase check must be performed and pass
at the last distance, i.e. the second-to-last distance's pL is positive
(the strict increase then follows from the surviving flag). -/
def amendedRecordAt (col : List ℚ) : Prop :=
  2 ≤ col.length ∧ List.Chain' (fun a b => 0 < a → a < b) col ∧
    0 < col.getD (col.length - 2) 0

instance amendedRecordAt.instDecidable (col : List ℚ) :
    Decidable (amendedRecordAt col) :=
  inferInstanceAs (Decidable (2 ≤ col.length ∧
    List.Chain' (fun a b : ℚ => 0 < a → a < b) col ∧
    0 < col.getD (col.length - 2) 0))

/-- Outer loop of the amended claim-C1 algorithm. -/
def amendedSearchAux (probs : List ℚ) (table : List (List ℚ)) :
    ℕ → ℕ → Option ℚ
  | 0, _ => none
  | Nat.succ fuel, i =>
    if 1 ≤ i ∧ amendedRecordAt (tableColumn table i) then
      some ((probs.getD (i - 1) 0 + probs.getD i 0) / 2)
    else amendedSearchAux probs table fuel (i + 1)

/-- The threshold search as the amended claim C1 describes it. -/
def amendedSearch (probs : List ℚ) (table : List (List ℚ)) : Option ℚ :=
  amendedSearchAux probs table (probs.length - 1) 0

/-- The probabilities swept by `simulate_threshold`:
`np.linspace(0.05, 0.15, 20)`, i.e. `1/20 + k/190` for `k = 0, ..., 19`. -/
def sweepProbabilities : List ℚ :=
  (List.range 20).map (fun k : ℕ => 1 / 20 + (k : ℚ) / 190)

/-- Results table (rows for the swept distances 3, 5, 7, 9) on which the
code's search and the claimed search disagree: every column is
`[0, 0, 0, 1/2]`, so the flag is never cleared (no previous pL is ever
positive) yet the code never records a threshold because the check at the
last distance is skipped. -/
def counterexampleTable : List (List ℚ) :=
  [List.replicate 20 0, List.replicate 20 0, List.replicate 20 0,
    List.replicate 20 (1 / 2)]

/-- Edge description of claim C6, following the spec text: space-like edges
between `(t, i-1)` and `(t, i)` with probability `p` and fault set `{i}`;
time-like edges between `(t-1, i)` and `(t, i)` with probability `q` and no
fault ids; and for every `t` a boundary edge at `(t, 0)` with fault id `0`
and a boundary edge at `(t, d-2)` with fault id `d-1`, both with
probability `p`. -/
def claimEdgeDescr (d : ℕ) (p q : ℚ) (e : Edge) : Prop :=
  (∃ t, t < d ∧ ∃ i, 1 ≤ i ∧ i ≤ d - 2 ∧
    e = Edge.mk (get_index d t (i - 1)) (some (get_index d t i)) p {i})
  ∨ (∃ t, 1 ≤ t ∧ t < d ∧ ∃ i, i < d - 1 ∧
    e = Edge.mk (get_index d (t - 1) i) (some (get_index d t i)) q ∅)
  ∨ (∃ t, t < d ∧
    (e = Edge.mk (get_index d t 0) none p {0}
      ∨ e = Edge.mk (get_index d t (d - 2)) none p {d - 1}))

/-- Emission order of claim C8, following the spec text: for each `t`,
first the interior space-like edges, then the two boundary edges for
`i = 0` and `i = d-2`; then, separately, all time-like edges. -/
def claimEdgeOrder (d : ℕ) (p q : ℚ) : List Edge :=
  ((List.range d).flatMap (fun t =>
    ((List.range' 1 (d - 2)).map (fun i =>
      Edge.mk (get_index d t (i - 1)) (some (get_index d t i)) p {i}))
    ++ [Edge.mk (get_index d t 0) none p {0},
        Edge.mk (get_index d t (d - 2)) none p {d - 1}]))
  ++ ((List.range' 1 (d - 1)).flatMap (fun t =>
    (List.range (d - 1)).map (fun i =>
      Edge.mk (get_index d (t - 1) i) (some (get_index d t i)) q ∅)))

/-- Emission order the code actually uses: all interior space-like edges
(`t` ascending, `i` from 1 to `d-2`), then all time-like edges, then all
boundary edges (`t` ascending, `i = 0` before `i = d-2`). -/
def amendedEdgeOrder (d : ℕ) (p q : ℚ) : List Edge :=
  ((List.range d).flatMap (fun t =>
    (List.range' 1 (d - 2)).map (fun i =>
      Edge.mk (get_index d t (i - 1)) (some (get_index d t i)) p {i})))
  ++ ((List.range' 1 (d - 1)).flatMap (fun t =>
    (List.range (d - 1)).map (fun i =>
      Edge.mk (get_index d (t - 1) i) (some (get_index d t i)) q ∅)))
  ++ ((List.range d).flatMap (fun t =>
    [Edge.mk (get_index d t 0) none p {0},
     Edge.mk (get_index d t (d - 2)) none p {d - 1}]))

/-- Entry `i` of a map over `List.range n`, for `i < n`. -/
lemma getD_map_range {α : Type} (dflt : α) (g : ℕ → α) {n i : ℕ} (hi : i < n) :
    ((List.range n).map g).getD i dflt = g i := by
  rw [List.getD_eq_getElem _ _ (by simpa using hi)]
  simp

lemma scanColumnGo_zero (col : List ℚ) : ∀ pLPrev allD,
    scanColumnGo 0 pLPrev allD col = false := by
  induction col with
  | nil => intro pLPrev allD; rfl
  | cons pL rest ih =>
    intro pLPrev allD
    rw [scanColumnGo]
    rw [if_neg (by simp)]
    exact ih pL allD

lemma scanColumnGo_pos (i : ℕ) (hi : 0 < i) (col : List ℚ) : ∀ pLPrev allD,
    scanColumnGo i pLPrev allD col = true ↔
      (allD = true ∧ List.Chain' (fun a b => 0 < a → a < b) (pLPrev :: col) ∧
        0 < (pLPrev :: col).getD ((pLPrev :: col).length - 2) 0 ∧ col ≠ []) := by
  induction col with
  | nil => intro pLPrev allD; simp [scanColumnGo]
  | cons pL rest ih =>
    intro pLPrev allD
    cases rest with
    | nil =>
      rw [scanColumnGo]
      by_cases h1 : 0 < pLPrev
      · rw [if_pos ⟨hi, h1⟩]
        by_cases h2 : pLPrev < pL
        · rw [if_pos h2]
          cases allD with
          | true => simp [List.chain'_cons, h1, h2]
          | false => simp [scanColumnGo, h1, h2]
        · rw [if_neg h2]
          simp [scanColumnGo, List.chain'_cons, h1, h2]
      · rw [if_neg (by simp [h1])]
        simp [scanColumnGo, h1]
    | cons pL2 rest2 =>
      rw [scanColumnGo]
      have hidx : (pLPrev :: pL :: pL2 :: rest2).getD
          ((pLPrev :: pL :: pL2 :: rest2).length - 2) 0 =
          (pL :: pL2 :: rest2).getD ((pL :: pL2 :: rest2).length - 2) 0 := by
        simp only [List.length_cons]
        have he : rest2.length + 1 + 1 + 1 - 2 = (rest2.length + 1 + 1 - 2) + 1 := by
          omega
        rw [he, List.getD_cons_succ]
      by_cases h1 : 0 < pLPrev
      · rw [if_pos ⟨hi, h1⟩]
        by_cases h2 : pLPrev < pL
        · rw [if_pos h2]
          rw [if_neg (by simp)]
          rw [ih pL allD, hidx]
          have hP : (0 < pLPrev → pLPrev < pL) := fun _ => h2
          simp only [List.chain'_cons, List.cons_ne_nil, and_true, ne_eq]
          tauto
        · rw [if_neg h2]
          rw [ih pL false]
          have hP : ¬ (0 < pLPrev → pLPrev < pL) := by
            intro h; exact h2 (h h1)
          simp [List.chain'_cons, hP]
      · rw [if_neg (by simp [h1])]
        rw [ih pL allD, hidx]
        have hP : (0 < pLPrev → pLPrev < pL) := fun h => absurd h h1
        simp only [List.chain'_cons, List.cons_ne_nil, and_true, ne_eq]
        tauto

lemma scanColumn_start (i : ℕ) (hi : 0 < i) (col : List ℚ) :
    scanColumnGo i (-1) true col = true ↔ amendedRecordAt col := by
  rw [scanColumnGo_pos i hi col (-1) true]
  unfold amendedRecordAt
  match col with
  | [] => simp
  | [c] =>
    have hm : ¬ (0 : ℚ) < -1 := by norm_num
    simp [List.chain'_cons, hm]
  | c :: c2 :: r =>
    have hidx : ((-1 : ℚ) :: c :: c2 :: r).getD
        (((-1 : ℚ) :: c :: c2 :: r).length - 2) 0
        = (c :: c2 :: r).getD ((c :: c2 :: r).length - 2) 0 := by
      simp only [List.length_cons]
      have he : r.length + 1 + 1 + 1 - 2 = (r.length + 1 + 1 - 2) + 1 := by omega
      rw [he, List.getD_cons_succ]
    rw [hidx]
    have h2 : 2 ≤ (c :: c2 :: r).length := by simp only [List.length_cons]; omega
    have hm : (0 : ℚ) < -1 → False := by norm_num
    simp only [List.chain'_cons, List.cons_ne_nil, and_true, ne_eq, true_and]
    tauto

lemma search_aux_eq_amended (probs : List ℚ) (table : List (List ℚ)) :
    ∀ fuel i, simulate_threshold_search_aux probs table fuel i =
      amendedSearchAux probs table fuel i := by
  intro fuel
  induction fuel with
  | zero => intro i; rfl
  | succ fuel ih =>
    intro i
    rw [simulate_threshold_search_aux, amendedSearchAux]
    rcases Nat.eq_zero_or_pos i with h0 | hpos
    · subst h0
      rw [if_neg, if_neg]
      · exact ih 1
      · rintro ⟨h, -⟩; omega
      · rw [scanColumnGo_zero]; simp
    · have hiff : (scanColumnGo i (-1) true (tableColumn table i) = true) ↔
          (1 ≤ i ∧ amendedRecordAt (tableColumn table i)) := by
        rw [scanColumn_start i hpos]
        exact ⟨fun ha => ⟨hpos, ha⟩, fun hc => hc.2⟩
      by_cases hb : scanColumnGo i (-1) true (tableColumn table i) = true
      · rw [if_pos hb, if_pos (hiff.mp hb)]
      · rw [if_neg hb, if_neg (fun hc => hb (hiff.mpr hc))]
        exact ih (i + 1)

lemma amendedSearchAux_eq_none (probs : List ℚ) (table : List (List ℚ)) :
    ∀ fuel i,
      (∀ j, i ≤ j → j < i + fuel → ¬ amendedRecordAt (tableColumn table j)) →
      amendedSearchAux probs table fuel i = none := by
  intro fuel
  induction fuel with
  | zero => intro i _; rfl
  | succ fuel ih =>
    intro i h
    rw [amendedSearchAux, if_neg]
    · exact ih (i + 1) (fun j hj1 hj2 => h j (by omega) (by omega))
    · rintro ⟨-, hrec⟩
      exact h i (le_refl i) (by omega) hrec

lemma not_amendedRecordAt_of_decreasing (col : List ℚ)
    (h : List.Chain' (fun a b : ℚ => b ≤ a) col) : ¬ amendedRecordAt col := by
  rintro ⟨hlen, hchain, hpos⟩
  rw [List.chain'_iff_get] at h hchain
  have hb : col.length - 2 < col.length - 1 := by omega
  have h1 := h (col.length - 2) hb
  have h2 := hchain (col.length - 2) hb
  rw [List.getD_eq_getElem col 0 (by omega)] at hpos
  simp only [List.get_eq_getElem] at h1 h2
  have h3 := h2 hpos
  exact absurd (lt_of_lt_of_le h3 h1) (lt_irrefl _)

lemma replicate_zero_getD (j : ℕ) : (List.replicate 20 (0 : ℚ)).getD j 0 = 0 := by
  by_cases hj : j < 20
  · rw [List.getD_eq_getElem _ _ (by simpa using hj), List.getElem_replicate]
  · rw [List.getD_eq_default _ _ (by simpa using Nat.le_of_not_lt hj)]

/-- C1 counterexample: on the swept probabilities and a results table whose
columns are all `[0, 0, 0, 1/2]`, the claimed algorithm never clears the
flag (no previous pL is ever positive), so it records the midpoint of the
first two probabilities at `i = 1`; the code records nothing, because the
recording branch at the last distance is only reached when the previous
distance's pL is positive. -/
theorem simulate_threshold_claim_counterexample :
    simulate_threshold_search sweepProbabilities counterexampleTable = none ∧
    claimSearch sweepProbabilities counterexampleTable = some (1 / 19) := by
  constructor
  · rw [simulate_threshold_search, search_aux_eq_amended]
    apply amendedSearchAux_eq_none
    intro j hj1 hj2
    rintro ⟨-, -, hpos⟩
    have hc : tableColumn counterexampleTable j
        = [0, 0, 0, (List.replicate 20 ((1 : ℚ) / 2)).getD j 0] := by
      simp only [tableColumn, counterexampleTable, List.map_cons, List.map_nil,
        replicate_zero_getD]
    rw [hc] at hpos
    simp only [List.length_cons, List.length_nil] at hpos
    norm_num [List.getD_cons_succ, List.getD_cons_zero] at hpos
  · have hg2 : (List.replicate 20 ((1 : ℚ) / 2)).getD 1 0 = 1 / 2 := by
      rw [List.getD_eq_getElem _ _ (by simp), List.getElem_replicate]
    have hcol : tableColumn counterexampleTable 1 = [0, 0, 0, 1 / 2] := by
      simp only [tableColumn, counterexampleTable, List.map_cons, List.map_nil,
        replicate_zero_getD, hg2]
    have hrec : claimRecordAt (tableColumn counterexampleTable 1) := by
      rw [hcol]
      unfold claimRecordAt
      simp [List.chain'_cons]
    have hp0 : sweepProbabilities.getD 0 0 = 1 / 20 := by
      rw [sweepProbabilities, getD_map_range 0 _ (by norm_num : (0 : ℕ) < 20)]
      norm_num
    have hp1 : sweepProbabilities.getD 1 0 = 1 / 20 + 1 / 190 := by
      rw [sweepProbabilities, getD_map_range 0 _ (by norm_num : (1 : ℕ) < 20)]
      norm_num
    have hlen : sweepProbabilities.length - 1 = 19 := by
      rw [sweepProbabilities]; simp
    rw [claimSearch, hlen]
    show claimSearchAux sweepProbabilities counterexampleTable (Nat.succ 18) 0
      = some (1 / 19)
    rw [claimSearchAux, if_neg (by rintro ⟨h, -⟩; omega)]
    show claimSearchAux sweepProbabilities counterexampleTable (Nat.succ 17) 1
      = some (1 / 19)
    rw [claimSearchAux, if_pos ⟨le_refl 1, hrec⟩]
    rw [show (1 - 1 : ℕ) = 0 from rfl, hp0, hp1]
    norm_num

/-- C1 (amended): the search clears the flag exactly as the claim states,
but records the threshold at probability index `i ≥ 1` exactly when the
flag survived the whole distance walk AND the increase check was actually
performed and passed at the last distance (equivalently, the second-to-last
distance's pL at this index is positive); it then records the midpoint and
stops scanning. -/
theorem simulate_threshold_search_eq_amended (probs : List ℚ)
    (table : List (List ℚ)) :
    simulate_threshold_search probs table = amendedSearch probs table :=
  search_aux_eq_amended probs table (probs.length - 1) 0

/-- C2: when the pL table is monotonically decreasing with distance at
every probability index, the crossing search of `simulate_threshold` finds
no crossing and the threshold stays undefined (`none`). -/
theorem simulate_threshold_search_none_of_decreasing (probs : List ℚ)
    (table : List (List ℚ))
    (h : ∀ i, i < probs.length →
      List.Chain' (fun a b : ℚ => b ≤ a) (tableColumn table i)) :
    simulate_threshold_search probs table = none := by
  rw [simulate_threshold_search, search_aux_eq_amended]
  apply amendedSearchAux_eq_none
  intro j hj1 hj2
  exact not_amendedRecordAt_of_decreasing _ (h j (by omega))

/-- Witness for C2 at a concrete table that is decreasing with distance at
every probability index. -/
theorem simulate_threshold_search_none_of_decreasing_witness :
    (∀ i, i < ([0, 0, 0] : List ℚ).length →
      List.Chain' (fun a b : ℚ => b ≤ a)
        (tableColumn [[(1 : ℚ) / 2, 1 / 2, 1 / 2], [(1 : ℚ) / 4, 1 / 4, 1 / 4]] i)) ∧
    simulate_threshold_search [0, 0, 0]
      [[(1 : ℚ) / 2, 1 / 2, 1 / 2], [(1 : ℚ) / 4, 1 / 4, 1 / 4]] = none := by
  have hch : ∀ i, i < ([0, 0, 0] : List ℚ).length →
      List.Chain' (fun a b : ℚ => b ≤ a)
        (tableColumn [[(1 : ℚ) / 2, 1 / 2, 1 / 2], [(1 : ℚ) / 4, 1 / 4, 1 / 4]] i) := by
    intro i hi
    have hi3 : i < 3 := by simpa using hi
    interval_cases i <;> norm_num [tableColumn, List.chain'_cons]
  exact ⟨hch, simulate_threshold_search_none_of_decreasing _ _ hch⟩

lemma mapM_eq_map_of_some {α β : Type} (f : α → Option β) (g : α → β) :
    ∀ l : List α, (∀ a ∈ l, f a = some (g a)) → l.mapM f = some (l.map g) := by
  intro l
  induction l with
  | nil => intro _; rfl
  | cons a l ih =>
    intro h
    rw [List.mapM_cons, h a (by simp), ih (fun b hb => h b (by simp [hb]))]
    rfl

lemma mapM_mem_isSome {α β : Type} (f : α → Option β) :
    ∀ l : List α, ∀ ys, l.mapM f = some ys → ∀ a ∈ l, (f a).isSome = true := by
  intro l
  induction l with
  | nil => intro ys _ a ha; simp at ha
  | cons b l ih =>
    intro ys h a ha
    rw [List.mapM_cons] at h
    match hfb : f b with
    | none => rw [hfb] at h; simp at h
    | some vb =>
      rw [hfb] at h
      simp only [Option.bind_eq_bind, Option.some_bind] at h
      match hml : l.mapM f with
      | none => rw [hml] at h; simp at h
      | some vs =>
        rcases List.mem_cons.mp ha with rfl | hmem
        · rw [hfb]; rfl
        · exact ih vs hml a hmem

lemma rowmajor_inj {L t i u j : ℕ} (hi : i < L) (hj : j < L)
    (h : L * t + i = L * u + j) : t = u ∧ i = j := by
  have hL : 0 < L := by omega
  have ht : (L * t + i) / L = t := by
    rw [Nat.mul_add_div hL, Nat.div_eq_of_lt hi, Nat.add_zero]
  have hu : (L * u + j) / L = u := by
    rw [Nat.mul_add_div hL, Nat.div_eq_of_lt hj, Nat.add_zero]
  have htu : t = u := by rw [← ht, ← hu, h]
  subst htu
  exact ⟨rfl, Nat.add_left_cancel h⟩

lemma flatMap_range_length {α : Type} (g : ℕ → ℕ → α) (L : ℕ) :
    ∀ d, ((List.range d).flatMap (fun t => (List.range L).map (g t))).length
      = d * L := by
  intro d
  induction d with
  | zero => simp
  | succ d ih =>
    rw [List.range_succ, List.flatMap_append, List.length_append, ih]
    simp [Nat.succ_mul]

lemma flatMap_range_getD {α : Type} (dflt : α) (g : ℕ → ℕ → α) {L : ℕ}
    {t i : ℕ} (hi : i < L) :
    ∀ d, t < d →
      ((List.range d).flatMap (fun s => (List.range L).map (g s))).getD
        (L * t + i) dflt = g t i := by
  intro d
  induction d with
  | zero => intro h; omega
  | succ d ih =>
    intro ht
    rw [List.range_succ, List.flatMap_append]
    rcases Nat.lt_or_ge t d with hlt | hge
    · rw [List.getD_append _ _ _ _ (by
        rw [flatMap_range_length]
        calc L * t + i < L * t + L := by omega
        _ = L * (t + 1) := by ring
        _ ≤ L * d := Nat.mul_le_mul_left L hlt
        _ = d * L := Nat.mul_comm L d)]
      exact ih hlt
    · have hteq : t = d := by omega
      subst hteq
      rw [List.getD_append_right _ _ _ _ (by
        rw [flatMap_range_length, Nat.mul_comm]; omega)]
      rw [flatMap_range_length]
      have hsub : L * t + i - t * L = i := by rw [Nat.mul_comm]; omega
      rw [hsub]
      simp only [List.flatMap_cons, List.flatMap_nil, List.append_nil]
      rw [List.getD_eq_getElem _ _ (by simpa using hi)]
      simp

lemma take_getD (run : List Bool) (n k : ℕ) (hk : k < n) (hn : n ≤ run.length) :
    (run.take n).getD k false = run.getD k false := by
  rw [List.getD_eq_getElem _ _ (by simp [List.length_take]; omega),
    List.getD_eq_getElem _ _ (by omega)]
  exact List.getElem_take run

lemma drop_getD (run : List Bool) (m j : ℕ) (hj : m + j < run.length) :
    (run.drop m).getD j false = run.getD (m + j) false := by
  rw [List.getD_eq_getElem _ _ (by simp [List.length_drop]; omega),
    List.getD_eq_getElem _ _ hj]
  exact List.getElem_drop run

lemma process_run_eq (d : ℕ) (hd : 2 ≤ d) (run : List Bool)
    (h1 : (d - 1) * (d - 1) ≤ run.length) (h2 : d ≤ run.length) :
    process_run d run = some ((List.range d).flatMap (fun t =>
      (List.range (d - 1)).map (fun i => defectVal d run t i))) := by
  have hfdlen : (run.drop (run.length - d)).length = d := by
    rw [List.length_drop]; omega
  have hget : ∀ j, j < d → (run.drop (run.length - d)).get? j
      = some (run.getD (run.length - d + j) false) := by
    intro j hj
    have hjb : j < (run.drop (run.length - d)).length := by omega
    rw [List.get?_eq_getElem?, List.getElem?_eq_getElem hjb,
      List.getD_eq_getElem _ _ (by omega : run.length - d + j < run.length)]
    exact congrArg some (List.getElem_drop run)
  have hmap : (List.range (d - 1)).mapM (fun i => do
      let a ← (run.drop (run.length - d)).get? i
      let b ← (run.drop (run.length - d)).get? (i + 1)
      pure (Bool.xor a b)) = some ((List.range (d - 1)).map (fun i =>
        Bool.xor (run.getD (run.length - d + i) false)
          (run.getD (run.length - d + i + 1) false))) := by
    apply mapM_eq_map_of_some
    intro a ha
    have haL : a < d - 1 := by simpa using ha
    rw [hget a (by omega), hget (a + 1) (by omega)]
    rfl
  have hsyn : ∀ s j, s ≤ d - 1 → j < d - 1 →
      (if s < d - 1 then (run.take ((d - 1) * (d - 1))).getD (s * (d - 1) + j) false
       else ((List.range (d - 1)).map (fun i =>
         Bool.xor (run.getD (run.length - d + i) false)
           (run.getD (run.length - d + i + 1) false))).getD j false)
      = synVal d run s j := by
    intro s j hs hj
    unfold synVal
    by_cases hlt : s < d - 1
    · rw [if_pos hlt, if_pos hlt]
      apply take_getD run _ _ _ h1
      obtain ⟨e, rfl⟩ : ∃ e, d = e + 2 := ⟨d - 2, by omega⟩
      have hs2 : s ≤ e := by omega
      have hj2 : j ≤ e := by omega
      have hms : s * (e + 2 - 1) ≤ e * (e + 1) := by
        have : e + 2 - 1 = e + 1 := by omega
        rw [this]
        exact Nat.mul_le_mul_right _ hs2
      have hrw : (e + 2 - 1) * (e + 2 - 1) = e * (e + 1) + (e + 1) := by
        have : e + 2 - 1 = e + 1 := by omega
        rw [this]; ring
      omega
    · rw [if_neg hlt, if_neg hlt]
      rw [getD_map_range false _ hj]
  rw [process_run]
  simp only []
  rw [if_pos (by rw [List.length_take]; omega), hmap]
  simp only []
  congr 1
  apply List.flatMap_congr
  intro t ht
  apply List.map_congr_left
  intro i hi
  have ht' : t < d := by simpa using ht
  have hi' : i < d - 1 := by simpa using hi
  by_cases ht0 : t = 0
  · subst ht0
    rw [if_pos rfl]
    unfold defectVal
    rw [if_pos rfl]
    exact hsyn 0 i (by omega) hi'
  · rw [if_neg ht0]
    unfold defectVal
    rw [if_neg ht0]
    rw [hsyn t i (by omega) hi', hsyn (t - 1) i (by omega) hi']

lemma process_run_isSome_iff (d : ℕ) (hd : 2 ≤ d) (run : List Bool) :
    (process_run d run).isSome = true ↔
      ((d - 1) * (d - 1) ≤ run.length ∧ d ≤ run.length) := by
  constructor
  · intro h
    by_cases hc : (run.take ((d - 1) * (d - 1))).length = (d - 1) * (d - 1)
    · have h1 : (d - 1) * (d - 1) ≤ run.length := by
        rw [List.length_take] at hc; omega
      refine ⟨h1, ?_⟩
      rw [process_run] at h
      simp only [] at h
      rw [if_pos hc] at h
      match hm : (List.range (d - 1)).mapM (fun i => do
          let a ← (run.drop (run.length - d)).get? i
          let b ← (run.drop (run.length - d)).get? (i + 1)
          pure (Bool.xor a b)) with
      | none => rw [hm] at h; simp at h
      | some proj =>
        have hmem := mapM_mem_isSome _ _ _ hm (d - 2) (by
          rw [List.mem_range]; omega)
        simp only [] at hmem
        match hga : (run.drop (run.length - d)).get? (d - 2) with
        | none => rw [hga] at hmem; simp at hmem
        | some a =>
          rw [hga] at hmem
          match hgb : (run.drop (run.length - d)).get? (d - 2 + 1) with
          | none => rw [hgb] at hmem; simp at hmem
          | some b =>
            have hlt : d - 2 + 1 < (run.drop (run.length - d)).length := by
              by_contra hge
              rw [List.get?_eq_none.mpr (by omega)] at hgb
              exact Option.noConfusion hgb
            rw [List.length_drop] at hlt
            omega
    · rw [process_run] at h
      simp only [] at h
      rw [if_neg hc] at h
      simp at h
  · rintro ⟨h1, h2⟩
    rw [process_run_eq d hd run h1 h2]
    rfl

lemma process_run_some_length (d : ℕ) (run out : List Bool)
    (h : process_run d run = some out) : out.length = d * (d - 1) := by
  rw [process_run] at h
  simp only [] at h
  by_cases hc : (run.take ((d - 1) * (d - 1))).length = (d - 1) * (d - 1)
  · rw [if_pos hc] at h
    match hm : (List.range (d - 1)).mapM (fun i => do
        let a ← (run.drop (run.length - d)).get? i
        let b ← (run.drop (run.length - d)).get? (i + 1)
        pure (Bool.xor a b)) with
    | none => rw [hm] at h; simp at h
    | some proj =>
      rw [hm] at h
      simp only [Option.some.injEq] at h
      rw [← h]
      exact flatMap_range_length _ _ d
  · rw [if_neg hc] at h
    simp at h

lemma rowmajor_lt_sq {d t i : ℕ} (hd : 2 ≤ d) (ht : t < d - 1) (hi : i < d - 1) :
    t * (d - 1) + i < (d - 1) * (d - 1) := by
  obtain ⟨e, rfl⟩ : ∃ e, d = e + 2 := ⟨d - 2, by omega⟩
  have h1 : e + 2 - 1 = e + 1 := by omega
  rw [h1] at ht hi ⊢
  have hms : t * (e + 1) ≤ e * (e + 1) := Nat.mul_le_mul_right _ (by omega)
  have hsq : (e + 1) * (e + 1) = e * (e + 1) + (e + 1) := by ring
  omega

/-- C3 counterexample: a record of length 20 for distance 3 has the wrong
length (the correct one is 7), yet `process_measurements` succeeds on it
instead of failing with a shape error. -/
theorem process_measurements_shape_counterexample :
    (List.replicate 20 false).length ≠ (3 - 1) * (3 - 1) + 3 ∧
    (process_run 3 (List.replicate 20 false)).isSome = true := by
  exact ⟨by decide, by decide⟩

/-- C3 (amended): for `d ≥ 2` the extractor succeeds — returning a flat
defect lattice of `d * (d-1)` entries — exactly when the record has at
least `(d-1)*(d-1)` bits (otherwise the reshape fails) and at least `d`
bits (otherwise the projected-syndrome indexing fails); in particular a
record of the correct length `(d-1)*(d-1)+d` succeeds with shape `d×(d-1)`,
but longer records succeed as well instead of raising a shape error. -/
theorem process_measurements_shape (d : ℕ) (hd : 2 ≤ d) (run : List Bool) :
    ((process_run d run).isSome = true ↔
      ((d - 1) * (d - 1) ≤ run.length ∧ d ≤ run.length)) ∧
    (∀ out, process_run d run = some out → out.length = d * (d - 1)) :=
  ⟨process_run_isSome_iff d hd run,
    fun out h => process_run_some_length d run out h⟩

/-- Witness for the amended C3 at distance 3 and a correct-length record. -/
theorem process_measurements_shape_witness :
    (2 ≤ 3) ∧
    (((process_run 3 (List.replicate 7 false)).isSome = true ↔
      ((3 - 1) * (3 - 1) ≤ (List.replicate 7 false).length ∧
        3 ≤ (List.replicate 7 false).length)) ∧
    (∀ out, process_run 3 (List.replicate 7 false) = some out →
      out.length = 3 * (3 - 1))) :=
  ⟨by decide, process_measurements_shape 3 (by decide) (List.replicate 7 false)⟩

/-- C4: on a record of the correct length, `process_measurements` returns
exactly the row-major flattening of the defect lattice described by the
spec: syndrome rows from the reshaped ancilla block plus the projected row
over the last `d` bits, then differenced in time. -/
theorem process_measurements_defect_formula (d : ℕ) (hd : 2 ≤ d)
    (run : List Bool) (hlen : run.length = (d - 1) * (d - 1) + d) :
    process_run d run = some ((List.range d).flatMap (fun t =>
      (List.range (d - 1)).map (fun i => specDefect d run t i))) := by
  rw [process_run_eq d hd run (by omega) (by omega)]
  have hfun : defectVal d run = specDefect d run := by
    funext t i
    unfold defectVal specDefect synVal specSyndrome
    rw [show run.length - d = (d - 1) * (d - 1) by omega]
  rw [hfun]

/-- Witness for C4 at distance 3 and a concrete correct-length record. -/
theorem process_measurements_defect_formula_witness :
    (2 ≤ 3 ∧ (singleAncillaRecord 3 0 1).length = (3 - 1) * (3 - 1) + 3) ∧
    process_run 3 (singleAncillaRecord 3 0 1)
      = some ((List.range 3).flatMap (fun t =>
        (List.range (3 - 1)).map (fun i =>
          specDefect 3 (singleAncillaRecord 3 0 1) t i))) :=
  ⟨⟨by decide, by decide⟩,
    process_measurements_defect_formula 3 (by decide) _ (by decide)⟩

/-- C5: the flat position of defect `D[t][i]` in the per-shot defect vector
equals the graph builder's node index `get_index d t i = (d-1)*t + i`: both
components use the same row-major layout. -/
theorem defect_position_matches_get_index (d : ℕ) (hd : 2 ≤ d)
    (run : List Bool) (hlen : run.length = (d - 1) * (d - 1) + d)
    (t i : ℕ) (ht : t < d) (hi : i < d - 1) :
    ∃ out, process_run d run = some out ∧
      out.getD (get_index d t i) false = specDefect d run t i := by
  refine ⟨_, process_run_eq d hd run (by omega) (by omega), ?_⟩
  rw [get_index, flatMap_range_getD false _ hi d ht]
  unfold defectVal specDefect synVal specSyndrome
  rw [show run.length - d = (d - 1) * (d - 1) by omega]

/-- Witness for C5 at distance 3, round 1, spatial index 0. -/
theorem defect_position_matches_get_index_witness :
    (2 ≤ 3 ∧ (singleAncillaRecord 3 1 0).length = (3 - 1) * (3 - 1) + 3 ∧
      1 < 3 ∧ 0 < 3 - 1) ∧
    (∃ out, process_run 3 (singleAncillaRecord 3 1 0) = some out ∧
      out.getD (get_index 3 1 0) false
        = specDefect 3 (singleAncillaRecord 3 1 0) 1 0) :=
  ⟨⟨by decide, by decide, by decide, by decide⟩,
    defect_position_matches_get_index 3 (by decide) _ (by decide) 1 0
      (by decide) (by decide)⟩

/-- C9: a correct-length record that is all zero except the ancilla bit at
round `t < d-1`, spatial index `i`, yields a defect lattice with exactly
two set bits, at `(t, i)` and `(t+1, i)`. -/
theorem single_ancilla_two_defects (d t i : ℕ) (hd : 2 ≤ d)
    (ht : t < d - 1) (hi : i < d - 1) :
    ∃ out, process_run d (singleAncillaRecord d t i) = some out ∧
      ∀ u, u < d → ∀ j, j < d - 1 →
        (out.getD ((d - 1) * u + j) false = true ↔
          ((u = t ∧ j = i) ∨ (u = t + 1 ∧ j = i))) := by
  have hlen : (singleAncillaRecord d t i).length = (d - 1) * (d - 1) + d := by
    rw [singleAncillaRecord, List.length_map, List.length_range]
  have hrec : ∀ k, k < (d - 1) * (d - 1) + d →
      (singleAncillaRecord d t i).getD k false = decide (k = t * (d - 1) + i) := by
    intro k hk
    rw [singleAncillaRecord, getD_map_range false _ hk]
  have hposlt := rowmajor_lt_sq hd ht hi
  have hsynm : ∀ s j', s < d - 1 → j' < d - 1 →
      synVal d (singleAncillaRecord d t i) s j' = decide (s = t ∧ j' = i) := by
    intro s j' hs hj'
    unfold synVal
    rw [if_pos hs, hrec _ (by have := rowmajor_lt_sq hd hs hj'; omega)]
    rw [decide_eq_decide]
    constructor
    · intro he
      rw [Nat.mul_comm s (d - 1), Nat.mul_comm t (d - 1)] at he
      exact rowmajor_inj hj' hi he
    · rintro ⟨rfl, rfl⟩
      rfl
  have hsynlast : ∀ j', j' < d - 1 →
      synVal d (singleAncillaRecord d t i) (d - 1) j' = false := by
    intro j' hj'
    unfold synVal
    rw [if_neg (lt_irrefl _), hlen,
      show (d - 1) * (d - 1) + d - d = (d - 1) * (d - 1) by omega]
    rw [hrec _ (by omega), hrec _ (by omega)]
    rw [decide_eq_false (by omega), decide_eq_false (by omega)]
    rfl
  refine ⟨_, process_run_eq d hd _ (by omega) (by omega), ?_⟩
  intro u hu j hj
  rw [flatMap_range_getD false _ hj d hu]
  unfold defectVal
  by_cases hu0 : u = 0
  · subst hu0
    rw [if_pos rfl, hsynm 0 j (by omega) hj]
    simp only [decide_eq_true_eq]
    constructor
    · exact fun h => Or.inl h
    · rintro (h | ⟨h1, -⟩)
      · exact h
      · omega
  · rw [if_neg hu0]
    by_cases hult : u < d - 1
    · rw [hsynm u j hult hj, hsynm (u - 1) j (by omega) hj]
      by_cases hA : u = t ∧ j = i <;> by_cases hB : u - 1 = t ∧ j = i
      · obtain ⟨hA1, hA2⟩ := hA
        obtain ⟨hB1, hB2⟩ := hB
        omega
      · rw [decide_eq_true hA, decide_eq_false hB]
        simp only [Bool.xor_false]
        constructor
        · exact fun _ => Or.inl hA
        · exact fun _ => trivial
      · rw [decide_eq_false hA, decide_eq_true hB]
        simp only [Bool.false_xor]
        constructor
        · intro _
          right
          obtain ⟨hB1, hB2⟩ := hB
          exact ⟨by omega, hB2⟩
        · exact fun _ => trivial
      · rw [decide_eq_false hA, decide_eq_false hB]
        constructor
        · intro h
          exact absurd h (by simp)
        · rintro (h | ⟨h1, h2⟩)
          · exact absurd h hA
          · exact absurd ⟨by omega, h2⟩ hB
    · have hueq : u = d - 1 := by omega
      subst hueq
      rw [hsynlast j hj, hsynm (d - 1 - 1) j (by omega) hj]
      simp only [Bool.false_xor, decide_eq_true_eq]
      constructor
      · rintro ⟨h1, h2⟩
        right
        exact ⟨by omega, h2⟩
      · rintro (⟨h1, -⟩ | ⟨h1, h2⟩)
        · omega
        · exact ⟨by omega, h2⟩

/-- Witness for C9 at distance 3, flipped ancilla at round 0, index 1. -/
theorem single_ancilla_two_defects_witness :
    (2 ≤ 3 ∧ 0 < 3 - 1 ∧ 1 < 3 - 1) ∧
    (∃ out, process_run 3 (singleAncillaRecord 3 0 1) = some out ∧
      ∀ u, u < 3 → ∀ j, j < 3 - 1 →
        (out.getD ((3 - 1) * u + j) false = true ↔
          ((u = 0 ∧ j = 1) ∨ (u = 0 + 1 ∧ j = 1)))) :=
  ⟨⟨by decide, by decide, by decide⟩,
    single_ancilla_two_defects 3 0 1 (by decide) (by decide) (by decide)⟩

/-- C10: on any record strictly longer than `(d-1)*(d-1) + d`,
`process_measurements` succeeds without raising, and its result depends on
the record only through the first `(d-1)*(d-1)` bits and the last `d`
bits — the bits in between are ignored. -/
theorem process_run_overlong (d : ℕ) (hd : 2 ≤ d) (run : List Bool)
    (hlen : (d - 1) * (d - 1) + d < run.length) :
    (process_run d run).isSome = true ∧
    process_run d run = process_run d
      (run.take ((d - 1) * (d - 1)) ++ run.drop (run.length - d)) := by
  have h1 : (d - 1) * (d - 1) ≤ run.length := by omega
  have h2 : d ≤ run.length := by omega
  have hA : (run.take ((d - 1) * (d - 1))).length = (d - 1) * (d - 1) := by
    rw [List.length_take]; omega
  have hF : (run.drop (run.length - d)).length = d := by
    rw [List.length_drop]; omega
  constructor
  · exact (process_run_isSome_iff d hd run).mpr ⟨h1, h2⟩
  · have htake : (run.take ((d - 1) * (d - 1))
        ++ run.drop (run.length - d)).take ((d - 1) * (d - 1))
        = run.take ((d - 1) * (d - 1)) := List.take_left' hA
    have hlen2 : (run.take ((d - 1) * (d - 1))
        ++ run.drop (run.length - d)).length = (d - 1) * (d - 1) + d := by
      rw [List.length_append, hA, hF]
    rw [process_run, process_run]
    simp only []
    rw [htake, hlen2,
      show (d - 1) * (d - 1) + d - d = (d - 1) * (d - 1) from by omega,
      List.drop_left' hA]

/-- Witness for C10 at distance 3 on a record of length 9 (correct is 7). -/
theorem process_run_overlong_witness :
    (2 ≤ 3 ∧ (3 - 1) * (3 - 1) + 3 < (List.replicate 9 false).length) ∧
    ((process_run 3 (List.replicate 9 false)).isSome = true ∧
    process_run 3 (List.replicate 9 false) = process_run 3
      ((List.replicate 9 false).take ((3 - 1) * (3 - 1))
        ++ (List.replicate 9 false).drop ((List.replicate 9 false).length - 3))) :=
  ⟨⟨by decide, by decide⟩,
    process_run_overlong 3 (by decide) (List.replicate 9 false) (by decide)⟩

lemma flatMap_const_length {α : Type} (f : ℕ → List α) (L : ℕ)
    (h : ∀ t, (f t).length = L) : ∀ l : List ℕ, (l.flatMap f).length = l.length * L := by
  intro l
  induction l with
  | nil => simp
  | cons a l ih =>
    rw [List.flatMap_cons, List.length_append, ih, h a, List.length_cons]
    ring

/-- For `d ≥ 3`, one round of the boundary loop emits exactly the two
boundary edges, at `i = 0` (fault 0) and `i = d-2` (fault `d-1`). -/
lemma boundary_row (d : ℕ) (hd : 3 ≤ d) (p : ℚ) (t : ℕ) :
    (List.range (d - 1)).filterMap (fun i =>
      if i = 0 ∨ i = d - 2 then
        some (Edge.mk (get_index d t i) none p {if i = 0 then 0 else d - 1})
      else none)
    = [Edge.mk (get_index d t 0) none p {0},
       Edge.mk (get_index d t (d - 2)) none p {d - 1}] := by
  obtain ⟨e, rfl⟩ : ∃ e, d = e + 3 := ⟨d - 3, by omega⟩
  rw [show e + 3 - 1 = (e + 1) + 1 from by omega]
  rw [List.range_succ, List.filterMap_append]
  rw [List.range_succ_eq_map, List.filterMap_cons]
  rw [if_pos (Or.inl rfl)]
  rw [List.filterMap_map]
  rw [List.filterMap_eq_nil_iff.mpr (fun a ha => by
    have hae : a < e := List.mem_range.mp ha
    show (if a + 1 = 0 ∨ a + 1 = e + 3 - 2 then _ else none) = none
    rw [if_neg (by omega)])]
  rw [List.filterMap_cons]
  rw [if_pos (Or.inr (by omega))]
  rw [List.filterMap_nil]
  rw [if_pos rfl, if_neg (by omega : ¬ (e + 1 = 0))]
  rw [show e + 3 - 2 = e + 1 from by omega]
  rfl

/-- For `d ≥ 3` the built graph is the three blocks in code order: space
edges, then time edges, then the two boundary edges per round. -/
lemma build_eq_amended (d : ℕ) (hd : 3 ≤ d) (p q : ℚ) :
    build_decoding_graph d p q = amendedEdgeOrder d p q := by
  have hb : ((List.range d).flatMap (fun t =>
      (List.range (d - 1)).filterMap (fun i =>
        if i = 0 ∨ i = d - 2 then
          some (Edge.mk (get_index d t i) none p {if i = 0 then 0 else d - 1})
        else none)))
      = (List.range d).flatMap (fun t =>
        [Edge.mk (get_index d t 0) none p {0},
         Edge.mk (get_index d t (d - 2)) none p {d - 1}]) :=
    List.flatMap_congr (fun t _ => boundary_row d hd p t)
  rw [build_decoding_graph, amendedEdgeOrder,
    show d - 1 - 1 = d - 2 from by omega, hb]

/-- C7 counterexample: at `d = 2` the builder emits 3 edges (no interior
space-like edge, one time-like edge, and a single boundary edge per round),
not the `2(d-2)d + 2d + (d-1)^2 = 5` edges the claim predicts. -/
theorem build_count_claim_counterexample :
    (build_decoding_graph 2 (1 / 2) (1 / 3)).length = 3 ∧
    (3 : ℕ) ≠ 2 * (2 - 2) + 2 * 2 + (2 - 1) * (2 - 1) := by
  exact ⟨rfl, by decide⟩

/-- C7 (amended): for `d ≥ 3` the builder produces exactly `d(d-2)`
interior space-like edges, `2d` boundary edges and `(d-1)^2` time-like
edges; at `d = 2` there is only one boundary edge per round. -/
theorem build_decoding_graph_count (d : ℕ) (hd : 3 ≤ d) (p q : ℚ) :
    (build_decoding_graph d p q).length
      = d * (d - 2) + 2 * d + (d - 1) * (d - 1) := by
  have hs : ((List.range d).flatMap (fun t =>
      (List.range' 1 (d - 2)).map (fun i =>
        Edge.mk (get_index d t (i - 1)) (some (get_index d t i)) p {i}))).length
      = d * (d - 2) := by
    rw [flatMap_const_length _ (d - 2) (fun t => by
      rw [List.length_map, List.length_range']) (List.range d), List.length_range]
  have htl : ((List.range' 1 (d - 1)).flatMap (fun t =>
      (List.range (d - 1)).map (fun i =>
        Edge.mk (get_index d (t - 1) i) (some (get_index d t i)) q ∅))).length
      = (d - 1) * (d - 1) := by
    rw [flatMap_const_length _ (d - 1) (fun t => by
      rw [List.length_map, List.length_range]) (List.range' 1 (d - 1)),
      List.length_range']
  have hbl : ((List.range d).flatMap (fun t =>
      [Edge.mk (get_index d t 0) none p {0},
       Edge.mk (get_index d t (d - 2)) none p {d - 1}])).length = d * 2 := by
    rw [flatMap_const_length (fun t =>
      [Edge.mk (get_index d t 0) none p {0},
       Edge.mk (get_index d t (d - 2)) none p {d - 1}]) 2 (fun t => rfl)
      (List.range d), List.length_range]
  rw [build_eq_amended d hd p q, amendedEdgeOrder]
  rw [List.length_append, List.length_append, hs, htl, hbl]
  omega

/-- Witness for the amended C7 at distance 3. -/
theorem build_decoding_graph_count_witness :
    (3 ≤ 3) ∧ (build_decoding_graph 3 (1 / 2) (1 / 3)).length
      = 3 * (3 - 2) + 2 * 3 + (3 - 1) * (3 - 1) :=
  ⟨by decide, build_decoding_graph_count 3 (by decide) (1 / 2) (1 / 3)⟩

/-- C8 counterexample: at `d = 3` the second emitted edge is the interior
space-like edge of round `t = 1` (an `add_edge` call, so it has a second
node), whereas the claimed order would put the boundary edge of round
`t = 0` there (an `add_boundary_edge` call, with no second node). -/
theorem build_order_claim_counterexample :
    build_decoding_graph 3 (1 / 2) (1 / 3)
      ≠ claimEdgeOrder 3 (1 / 2) (1 / 3) := by
  intro h
  have h1 : ((build_decoding_graph 3 (1 / 2) (1 / 3)).getD 1
      (Edge.mk 0 none 0 ∅)).node2 = some 3 := by decide
  have h2 : ((claimEdgeOrder 3 (1 / 2) (1 / 3)).getD 1
      (Edge.mk 0 none 0 ∅)).node2 = none := by decide
  rw [h, h2] at h1
  exact Option.noConfusion h1

/-- C8 (amended): for `d ≥ 3` the builder emits, in this fixed order, all
interior space-like edges (`t` ascending, `i` from 1 to `d-2`), then all
time-like edges (`t` from 1 to `d-1`), then all boundary edges
(`t` ascending, `i = 0` before `i = d-2`); boundary edges come last, after
the time-like edges, not interleaved per round with the space-like ones. -/
theorem build_decoding_graph_order (d : ℕ) (hd : 3 ≤ d) (p q : ℚ) :
    build_decoding_graph d p q = amendedEdgeOrder d p q :=
  build_eq_amended d hd p q

/-- Witness for the amended C8 at distance 3. -/
theorem build_decoding_graph_order_witness :
    (3 ≤ 3) ∧ build_decoding_graph 3 (1 / 2) (1 / 3)
      = amendedEdgeOrder 3 (1 / 2) (1 / 3) :=
  ⟨by decide, build_decoding_graph_order 3 (by decide) (1 / 2) (1 / 3)⟩

/-- C6 counterexample: at `d = 2` the nodes `(t, 0)` and `(t, d-2)`
coincide, and the builder emits a single boundary edge per round, with
fault id 0; the boundary edge with fault id `d-1 = 1` that the claim
requires is never added. -/
theorem build_edges_claim_counterexample :
    claimEdgeDescr 2 (1 / 2) (1 / 3) (Edge.mk 0 none (1 / 2) {1}) ∧
    Edge.mk 0 none (1 / 2) {1} ∉ build_decoding_graph 2 (1 / 2) (1 / 3) := by
  constructor
  · right; right
    refine ⟨0, by norm_num, Or.inr ?_⟩
    rfl
  · intro h
    simp [build_decoding_graph, get_index] at h

/-- C6 (amended): for `d ≥ 3` the edges of the built graph are exactly
those the claim describes; at `d = 2` the space-like part is empty and each
round has a single boundary edge, with fault id 0. -/
theorem build_decoding_graph_edge_characterization (d : ℕ) (hd : 3 ≤ d)
    (p q : ℚ) (e : Edge) :
    e ∈ build_decoding_graph d p q ↔ claimEdgeDescr d p q e := by
  rw [build_eq_amended d hd p q, amendedEdgeOrder, claimEdgeDescr]
  simp only [List.mem_append, List.mem_flatMap, List.mem_map, List.mem_range,
    List.mem_range'_1, List.mem_cons, List.not_mem_nil, or_false]
  constructor
  · rintro (((⟨t, ht, i, hi, rfl⟩) | (⟨t, ht, i, hi, rfl⟩)) | (⟨t, ht, h⟩))
    · exact Or.inl ⟨t, ht, i, hi.1, by omega, rfl⟩
    · exact Or.inr (Or.inl ⟨t, ht.1, by omega, i, hi, rfl⟩)
    · exact Or.inr (Or.inr ⟨t, ht, h⟩)
  · rintro ((⟨t, ht, i, hi1, hi2, rfl⟩) | (⟨t, ht1, ht2, i, hi, rfl⟩) | (⟨t, ht, h⟩))
    · exact Or.inl (Or.inl ⟨t, ht, i, ⟨hi1, by omega⟩, rfl⟩)
    · exact Or.inl (Or.inr ⟨t, ⟨ht1, by omega⟩, i, hi, rfl⟩)
    · exact Or.inr ⟨t, ht, h⟩

/-- Witness for the amended C6 at distance 3, checked on the right-hand
boundary edge of round 0. -/
theorem build_decoding_graph_edge_characterization_witness :
    (3 ≤ 3) ∧
    (Edge.mk (get_index 3 0 (3 - 2)) none (1 / 2) {3 - 1}
        ∈ build_decoding_graph 3 (1 / 2) (1 / 3) ↔
      claimEdgeDescr 3 (1 / 2) (1 / 3)
        (Edge.mk (get_index 3 0 (3 - 2)) none (1 / 2) {3 - 1})) :=
  ⟨by decide, build_decoding_graph_edge_characterization 3 (by decide)
    (1 / 2) (1 / 3) (Edge.mk (get_index 3 0 (3 - 2)) none (1 / 2) {3 - 1})⟩
